import Mathlib

/-!
# risk-radar: the unlinkat probe of `src/ebpf/radar.c`

A shallow embedding of the eBPF program `trace_unlinkat` and of the record it
emits, `struct event`.  Bytes (`char`) are natural numbers, buffers are lists of
bytes, machine integers are natural numbers reduced modulo `2^w` where the C
type narrows them.  The kernel helpers the program calls live in the host
kernel; they are modelled here as executable functions over an explicit
description of the calling task (`Kernel`) and of the `events` map
(`PerfEventArray`).
-/

namespace Radar

/-! ## C strings and fixed-size buffers -/

/-- The C string held in a buffer: the bytes before the first NUL. -/
def cstr (buf : List Nat) : List Nat :=
  buf.takeWhile (fun b => b != 0)

/-- A buffer of `n` bytes holding a NUL-terminated string followed only by NUL bytes. -/
def nul_padded (n : Nat) (buf : List Nat) : Prop :=
  buf.length = n ∧ (cstr buf).length < n ∧
    buf = cstr buf ++ List.replicate (n - (cstr buf).length) 0

instance (n : Nat) (buf : List Nat) : Decidable (nul_padded n buf) := by
  unfold nul_padded; infer_instance

/-- Store `bytes` at the start of `dst`; the rest of `dst` keeps its contents. -/
def store (dst bytes : List Nat) : List Nat :=
  bytes ++ dst.drop bytes.length

/-- The C statement `memset(dst, 0, size)`. -/
def memset_zero (dst : List Nat) (size : Nat) : List Nat :=
  store dst (List.replicate size 0)

/-! ## `struct event` and its layout -/

/-- The C declaration `char comm[16]`. -/
def COMM_SIZE : Nat := 16

/-- The C declaration `char filename[256]`. -/
def FILENAME_SIZE : Nat := 256

/-- The record `struct event` of radar.c: `__u32 pid; char comm[16]; char filename[256];`. -/
structure event where
  pid : Nat
  comm : List Nat
  filename : List Nat
deriving DecidableEq, Repr

/-- The initialiser `struct event evt = {}`: every member zero. -/
def event_zero : event :=
  { pid := 0, comm := List.replicate COMM_SIZE 0, filename := List.replicate FILENAME_SIZE 0 }

/-- Size and alignment of one member of a C struct. -/
structure Member where
  size : Nat
  align : Nat
deriving DecidableEq, Repr

/-- Round `off` up to the next multiple of `a`. -/
def align_up (off a : Nat) : Nat :=
  (off + a - 1) / a * a

/-- Offsets of the members of a C struct laid out from offset `off`: each member
is placed at the next offset that is a multiple of its alignment. -/
def member_offsets : List Member → Nat → List Nat
  | [], _ => []
  | m :: ms, off => align_up off m.align :: member_offsets ms (align_up off m.align + m.size)

/-- Offset just past the last member. -/
def members_end : List Member → Nat → Nat
  | [], off => off
  | m :: ms, off => members_end ms (align_up off m.align + m.size)

/-- The C operator `sizeof` on a struct: the end of the last member rounded up to the
largest member alignment. -/
def struct_sizeof (ms : List Member) : Nat :=
  align_up (members_end ms 0) ((ms.map Member.align).foldr max 1)

/-- Members of `struct event`: `__u32` (4 bytes, aligned to 4) and two `char` arrays. -/
def event_members : List Member :=
  [⟨4, 4⟩, ⟨COMM_SIZE, 1⟩, ⟨FILENAME_SIZE, 1⟩]

/-- The C expression `sizeof(evt)`. -/
def sizeof_event : Nat := struct_sizeof event_members

/-- Little-endian bytes of a `__u32` (the target is x86, `__TARGET_ARCH_x86`). -/
def le32 (v : Nat) : List Nat :=
  [v % 256, v / 256 % 256, v / 65536 % 256, v / 16777216 % 256]

/-- Value of a little-endian `__u32`. -/
def le32_value (bs : List Nat) : Nat :=
  bs.getD 0 0 + 256 * bs.getD 1 0 + 65536 * bs.getD 2 0 + 16777216 * bs.getD 3 0

/-- Lay member images out in memory: pad with zero bytes up to each member's
alignment, then up to the struct's size. -/
def place_members : List (Member × List Nat) → List Nat → List Nat
  | [], acc => acc
  | (m, bs) :: rest, acc =>
    place_members rest (acc ++ List.replicate (align_up acc.length m.align - acc.length) 0 ++ bs)

/-- The bytes of a `struct event` object as they sit in memory. -/
def event_bytes (e : event) : List Nat :=
  let body := place_members
    [(⟨4, 4⟩, le32 e.pid), (⟨COMM_SIZE, 1⟩, e.comm), (⟨FILENAME_SIZE, 1⟩, e.filename)] []
  body ++ List.replicate (sizeof_event - body.length) 0

/-- Wire field `pid`: 4 bytes at offset 0. -/
def wire_pid (data : List Nat) : Nat := le32_value (data.take 4)

/-- Wire field `comm`: 16 bytes at offset 4. -/
def wire_comm (data : List Nat) : List Nat := (data.drop 4).take 16

/-- Wire field `filename`: 256 bytes at offset 20. -/
def wire_filename (data : List Nat) : List Nat := (data.drop 20).take 256

/-! ## The execution context -/

/-- The tracepoint context `struct trace_event_raw_sys_enter` (declared in vmlinux.h):
the syscall number and its six raw arguments, `unsigned long args[6]`. -/
structure trace_event_raw_sys_enter where
  id : Int
  args : Fin 6 → Nat

/-- What the helpers observe of the calling task and of the host: the combined
(tgid, tid) value, the task's program name, the caller's address space (a byte
per readable address, `none` where a read faults), the executing core, and
whether a failed string read clears its destination (the host does) or leaves
the bytes copied before the fault. -/
structure Kernel where
  pid_tgid : Nat
  comm : List Nat
  mem : Nat → Option Nat
  cpu : Nat
  clear_on_fault : Bool

/-- One call of the output helper: the core it targeted and the bytes it was handed. -/
structure Submission where
  cpu : Nat
  data : List Nat
deriving DecidableEq, Repr

/-- State of the `events` map: the slot capacity of each core's channel, the records
queued per core (oldest first), and the log of every submission attempted. -/
structure PerfEventArray where
  capacity : Nat
  ring : Nat → List (List Nat)
  log : List Submission

/-- Modelled from the spec: the map `events` of radar.c is declared there with
`max_entries` 1024 but implemented by the host; the spec reads this as the number
of event slots of each core's channel ("observed default: 1024"), empty at attach. -/
def events : PerfEventArray :=
  { capacity := 1024, ring := fun _ => [], log := [] }

/-! ## Kernel helpers -/

/-- Error numbers returned by the helpers. -/
def EFAULT : Int := 14

/-- Error number for a full channel. -/
def ENOSPC : Int := 28

/-- Flag mask selecting the channel index. -/
def BPF_F_INDEX_MASK : Nat := 0xffffffff

/-- Flag value: use the channel of the executing core. -/
def BPF_F_CURRENT_CPU : Nat := BPF_F_INDEX_MASK

/-- The helper `bpf_get_current_pid_tgid` of the host kernel: its return value is a
parameter, the field `pid_tgid` of the caller, as an unsigned 64-bit integer (the
thread-group id in the upper 32 bits, the thread id in the lower 32). -/
def bpf_get_current_pid_tgid (k : Kernel) : Nat :=
  k.pid_tgid % 2 ^ 64

/-- Modelled from the spec: the string copy behind `bpf_get_current_comm` (host code,
not in radar.c): copy the source C string into `size` bytes, truncating to
`size - 1` bytes, terminating with NUL and padding the rest with NUL. -/
def strscpy_pad (src : List Nat) (size : Nat) : List Nat :=
  let s := (cstr src).take (size - 1)
  s ++ List.replicate (size - s.length) 0

/-- Modelled from the spec: the helper `bpf_get_current_comm(buf, size)` is provided by
the host kernel; it reads the caller's short program name into the buffer,
truncating if longer, and returns 0. -/
def bpf_get_current_comm (k : Kernel) (buf : List Nat) (size : Nat) : Int × List Nat :=
  (0, store buf (strscpy_pad k.comm size))

/-- Modelled from the spec: the user-memory string scan behind `bpf_probe_read_user_str`
(host code): read bytes from address `src` until a NUL, `count` bytes, or a
fault.  Returns the bytes stored and the result: the string length when a NUL was
found, `count` when none was found in `count` bytes, `-EFAULT` on a fault. -/
def strncpy_from_user (mem : Nat → Option Nat) : Nat → Nat → List Nat × Int
  | _, 0 => ([], 0)
  | src, n + 1 =>
    match mem src with
    | none => ([], -EFAULT)
    | some c =>
      if c = 0 then ([0], 0)
      else
        let r := strncpy_from_user mem (src + 1) n
        (c :: r.1, if r.2 < 0 then r.2 else r.2 + 1)

/-- Modelled from the spec: the helper `bpf_probe_read_user_str(dst, size, unsafe_ptr)` is
provided by the host kernel.  It copies a NUL-terminated string from the caller's
address space; a string of `size` bytes or more is cut to `size - 1` bytes plus
NUL; a shorter one is not padded.  It returns the length including the NUL, or a
negative value when the read faults, in which case the destination is cleared
(or, with `clear_on_fault` off, keeps the bytes copied before the fault). -/
def bpf_probe_read_user_str (k : Kernel) (dst : List Nat) (size : Nat) (unsafe_ptr : Nat) :
    Int × List Nat :=
  if size = 0 then (0, dst)
  else
    let r := strncpy_from_user k.mem unsafe_ptr size
    let dst1 := store dst r.1
    if (size : Int) ≤ r.2 then (size, dst1.set (size - 1) 0)
    else if 0 ≤ r.2 then (r.2 + 1, dst1)
    else (r.2, if k.clear_on_fault then memset_zero dst1 size else dst1)

/-- Modelled from the spec: the helper `bpf_perf_event_output(ctx, map, flags, data, size)`
is provided by the host kernel.  It hands `size` bytes at `data` to the channel of
the core selected by `flags`; when that channel is full the record is dropped and
a negative value returned, nothing else changes.  Every call is logged. -/
def bpf_perf_event_output (k : Kernel) (m : PerfEventArray) (flags : Nat) (data : List Nat)
    (size : Nat) : Int × PerfEventArray :=
  let index := if flags % 2 ^ 32 = BPF_F_CURRENT_CPU then k.cpu else flags % 2 ^ 32
  let record := data.take size
  let logged := m.log ++ [⟨index, record⟩]
  if (m.ring index).length < m.capacity then
    (0, { m with ring := Function.update m.ring index (m.ring index ++ [record]), log := logged })
  else
    (-ENOSPC, { m with log := logged })

/-! ## The probe -/

/-- The record `evt` of `trace_unlinkat` at the point where it is submitted
(radar.c lines 26 to 32): zero-initialised, then `pid`, `comm` and `filename` are
filled in; the helpers' return values are not inspected. -/
def build_evt (k : Kernel) (ctx : trace_event_raw_sys_enter) : event :=
  let evt : event := event_zero
  let evt : event := { evt with pid := (bpf_get_current_pid_tgid k >>> 32) % 2 ^ 32 }
  let evt : event := { evt with comm := (bpf_get_current_comm k evt.comm COMM_SIZE).2 }
  let evt : event :=
    { evt with filename := (bpf_probe_read_user_str k evt.filename FILENAME_SIZE (ctx.args 1)).2 }
  evt

/-- The program `trace_unlinkat` of radar.c: build the record, submit it to `events`
on the current core, return 0.  The result is the return value, the context after
the call, and the `events` map after the call. -/
def trace_unlinkat (k : Kernel) (ctx : trace_event_raw_sys_enter) (m : PerfEventArray) :
    Int × trace_event_raw_sys_enter × PerfEventArray :=
  let evt := build_evt k ctx
  let out := bpf_perf_event_output k m BPF_F_CURRENT_CPU (event_bytes evt) sizeof_event
  (0, ctx, out.2)

/-- The bytes handed to the channel by the latest submission recorded in the map. -/
def last_submitted (m : PerfEventArray) : List Nat :=
  (m.log.getLast?.map Submission.data).getD []

/-- The record one invocation of `trace_unlinkat` submits. -/
def submitted (k : Kernel) (ctx : trace_event_raw_sys_enter) (m : PerfEventArray) : List Nat :=
  last_submitted (trace_unlinkat k ctx m).2.2

/-- A sequence of invocations, each with its own caller and context, on one map. -/
def run_probe : List (Kernel × trace_event_raw_sys_enter) → PerfEventArray → PerfEventArray
  | [], m => m
  | (k, ctx) :: rest, m => run_probe rest (trace_unlinkat k ctx m).2.2

/-- Holds when the NUL-free string `path`, with its terminating NUL, is readable in
`mem` at address `addr`. -/
def user_string_at (mem : Nat → Option Nat) : Nat → List Nat → Bool
  | addr, [] => mem addr == some 0
  | addr, b :: bs => b != 0 && mem addr == some b && user_string_at mem (addr + 1) bs

/-- Holds when the bytes `bs` are readable in `mem` at address `addr`. -/
def user_bytes_at (mem : Nat → Option Nat) : Nat → List Nat → Bool
  | _, [] => true
  | addr, b :: bs => mem addr == some b && user_bytes_at mem (addr + 1) bs

/-- An address space holding exactly the string `path` and its NUL at address `addr`. -/
def mem_with (addr : Nat) (path : List Nat) : Nat → Option Nat :=
  fun a => if addr ≤ a then (path ++ [0]).get? (a - addr) else none

/-! ## Sample inputs -/

/-- A caller: process 5, thread 77, program name "rm", the path "abc" at address 1000. -/
def sample_kernel : Kernel :=
  { pid_tgid := 5 * 2 ^ 32 + 77, comm := [114, 109], mem := mem_with 1000 [97, 98, 99],
    cpu := 0, clear_on_fault := true }

/-- A caller whose path pointer is unmapped: every read faults. -/
def faulting_kernel : Kernel :=
  { pid_tgid := 5 * 2 ^ 32 + 77, comm := [114, 109], mem := fun _ => none,
    cpu := 0, clear_on_fault := true }

/-- A caller whose path starts with "ab" and then runs into an unmapped address, on a
host that does not clear the destination of a failed read. -/
def torn_kernel : Kernel :=
  { pid_tgid := 5 * 2 ^ 32 + 77, comm := [114, 109],
    mem := fun a => if a = 1000 then some 97 else if a = 1001 then some 98 else none,
    cpu := 0, clear_on_fault := false }

/-- A caller with a 16-byte program name and a 300-byte path at address 1000. -/
def long_kernel : Kernel :=
  { pid_tgid := 9 * 2 ^ 32 + 9, comm := List.replicate 16 66,
    mem := mem_with 1000 (List.replicate 300 65), cpu := 1, clear_on_fault := false }

/-- The context of `unlinkat(dirfd, path, flags)` with the path pointer 1000. -/
def sample_ctx : trace_event_raw_sys_enter :=
  { id := 263, args := fun i => if i = 1 then 1000 else 0 }

/-- An undrained map with `K` slots per core. -/
def sample_events (K : Nat) : PerfEventArray :=
  { capacity := K, ring := fun _ => [], log := [] }

/-! ## Buffers -/

theorem cstr_append_zeros (q : List Nat) (n : Nat) (hq : ∀ b ∈ q, b ≠ 0) :
    cstr (q ++ List.replicate n 0) = q := by
  induction q with
  | nil => cases n <;> simp [cstr, List.replicate_succ]
  | cons a t ih =>
    have ha : a ≠ 0 := hq a (by simp)
    have ht : ∀ b ∈ t, b ≠ 0 := fun b hb => hq b (by simp [hb])
    have := ih ht
    simp only [cstr] at this ⊢
    simp [List.takeWhile_cons, ha, this]

theorem nul_padded_of_string (n : Nat) (q : List Nat) (hq : ∀ b ∈ q, b ≠ 0) (hn : q.length < n) :
    nul_padded n (q ++ List.replicate (n - q.length) 0) := by
  refine ⟨by simp; omega, ?_, ?_⟩
  · rw [cstr_append_zeros q _ hq]; exact hn
  · rw [cstr_append_zeros q _ hq]

theorem store_zeros (n : Nat) (w : List Nat) :
    store (List.replicate n 0) w = w ++ List.replicate (n - w.length) 0 := by
  simp [store]

theorem store_length (dst w : List Nat) (h : w.length ≤ dst.length) :
    (store dst w).length = dst.length := by
  simp [store]; omega

/-! ## Layout of `struct event` -/

theorem sizeof_event_eq : sizeof_event = 276 := by decide

theorem event_bytes_eq (e : event) (hc : e.comm.length = 16) (hf : e.filename.length = 256) :
    event_bytes e = le32 e.pid ++ e.comm ++ e.filename := by
  simp [event_bytes, place_members, align_up, le32, hc, hf, sizeof_event_eq, COMM_SIZE,
    FILENAME_SIZE]

theorem le32_value_le32 (p : Nat) (hp : p < 2 ^ 32) : le32_value (le32 p) = p := by
  simp [le32_value, le32]
  omega

theorem wire_pid_eq (p : Nat) (c f : List Nat) (hp : p < 2 ^ 32) :
    wire_pid (le32 p ++ c ++ f) = p := by
  have h : (le32 p ++ c ++ f).take 4 = le32 p := by simp [le32]
  rw [wire_pid, h, le32_value_le32 p hp]

theorem wire_comm_eq (p : Nat) (c f : List Nat) (hc : c.length = 16) :
    wire_comm (le32 p ++ c ++ f) = c := by
  simp [wire_comm, le32, hc, List.take_append_eq_append_take, List.take_of_length_le]

theorem wire_filename_eq (p : Nat) (c f : List Nat) (hc : c.length = 16) (hf : f.length = 256) :
    wire_filename (le32 p ++ c ++ f) = f := by
  have h : (le32 p ++ c ++ f).drop 20 = f := by
    have : (le32 p ++ c).length = 20 := by simp [le32, hc]
    rw [← this, List.drop_left]
  rw [wire_filename, h, List.take_of_length_le (by omega)]

/-! ## The user-memory string read -/

theorem user_string_at_bytes (mem : Nat → Option Nat) (p : List Nat) (addr : Nat)
    (h : user_string_at mem addr p = true) :
    (∀ b ∈ p, b ≠ 0) ∧ user_bytes_at mem addr p = true ∧ mem (addr + p.length) = some 0 := by
  induction p generalizing addr with
  | nil => simpa [user_string_at, user_bytes_at] using h
  | cons a t ih =>
    simp only [user_string_at, Bool.and_eq_true, bne_iff_ne, ne_eq, beq_iff_eq] at h
    obtain ⟨⟨ha, hm⟩, ht⟩ := h
    obtain ⟨h1, h2, h3⟩ := ih (addr + 1) ht
    refine ⟨?_, ?_, ?_⟩
    · intro b hb
      rcases List.mem_cons.mp hb with rfl | hb
      · exact ha
      · exact h1 b hb
    · simp [user_bytes_at, hm, h2]
    · rw [← h3]; congr 1; simp; omega

/-- Outcome of the scan on a readable string: the whole string and its NUL when it is
shorter than `count`, otherwise its first `count` bytes. -/
theorem strncpy_from_user_string (mem : Nat → Option Nat) (count : Nat) (p : List Nat)
    (addr : Nat) (h : user_string_at mem addr p = true) :
    strncpy_from_user mem addr count =
      if p.length < count then (p ++ [0], (p.length : Int)) else (p.take count, (count : Int)) := by
  induction count generalizing addr p with
  | zero => simp [strncpy_from_user]
  | succ n ih =>
    cases p with
    | nil =>
      simp only [user_string_at, beq_iff_eq] at h
      simp [strncpy_from_user, h]
    | cons a t =>
      simp only [user_string_at, Bool.and_eq_true, bne_iff_ne, ne_eq, beq_iff_eq] at h
      obtain ⟨⟨ha, hm⟩, ht⟩ := h
      rw [strncpy_from_user]
      simp only [hm, ha, if_false]
      rw [ih t (addr + 1) ht]
      by_cases hlt : t.length < n
      · have h2 : (a :: t).length < n + 1 := by simp; omega
        simp [hlt, h2]
      · have h2 : ¬ (a :: t).length < n + 1 := by simp; omega
        simp [hlt, h2]

/-- Every outcome of the scan: a fault after fewer than `count` NUL-free bytes, a
NUL-terminated string shorter than `count`, or `count` NUL-free bytes. -/
theorem strncpy_from_user_cases (mem : Nat → Option Nat) (count addr : Nat) :
    ((strncpy_from_user mem addr count).2 = -EFAULT ∧
        (strncpy_from_user mem addr count).1.length < count ∧
        (∀ b ∈ (strncpy_from_user mem addr count).1, b ≠ 0) ∧
        user_bytes_at mem addr (strncpy_from_user mem addr count).1 = true ∧
        mem (addr + (strncpy_from_user mem addr count).1.length) = none) ∨
    (∃ p : List Nat, strncpy_from_user mem addr count = (p ++ [0], (p.length : Int)) ∧
        p.length < count ∧ user_string_at mem addr p = true) ∨
    ((strncpy_from_user mem addr count).2 = (count : Int) ∧
        (strncpy_from_user mem addr count).1.length = count ∧
        (∀ b ∈ (strncpy_from_user mem addr count).1, b ≠ 0) ∧
        user_bytes_at mem addr (strncpy_from_user mem addr count).1 = true) := by
  induction count generalizing addr with
  | zero =>
    right; right
    simp [strncpy_from_user, user_bytes_at]
  | succ n ih =>
    rw [strncpy_from_user]
    cases hm : mem addr with
    | none =>
      left
      simp [user_bytes_at, hm]
    | some c =>
      by_cases hc : c = 0
      · right; left
        refine ⟨[], ?_⟩
        subst hc
        simp [user_string_at, hm]
      · simp only [hc, if_false]
        rcases ih (addr + 1) with ⟨h1, h2, h3, h4, h5⟩ | ⟨p, hp, hlen, hs⟩ | ⟨h1, h2, h3, h4⟩
        · left
          refine ⟨?_, ?_, ?_, ?_, ?_⟩
          · simp [h1, EFAULT]
          · simp; omega
          · intro b hb
            rcases List.mem_cons.mp hb with rfl | hb
            · exact hc
            · exact h3 b hb
          · simp [user_bytes_at, hm, h4]
          · rw [← h5]; congr 1; simp; omega
        · right; left
          refine ⟨c :: p, ?_, ?_, ?_⟩
          · rw [hp]
            have : ¬ ((p.length : Int) < 0) := by omega
            simp [this]
          · simp; omega
          · simp [user_string_at, hm, hs, hc]
        · right; right
          refine ⟨?_, ?_, ?_, ?_⟩
          · rw [h1]
            have : ¬ ((n : Int) < 0) := by omega
            simp [this]
          · simp [h2]
          · intro b hb
            rcases List.mem_cons.mp hb with rfl | hb
            · exact hc
            · exact h3 b hb
          · simp [user_bytes_at, hm, h4]

theorem set_last_zero (w : List Nat) (n : Nat) (hn : 0 < n) (hw : w.length = n) :
    w.set (n - 1) 0 = w.take (n - 1) ++ [0] := by
  rw [List.set_eq_take_append_cons_drop]
  have h1 : n - 1 < w.length := by omega
  have h2 : w.drop (n - 1 + 1) = [] := List.drop_of_length_le (by omega)
  simp [h1, h2]

theorem mem_take_ne_zero (w : List Nat) (n : Nat) (hw : ∀ b ∈ w, b ≠ 0) :
    ∀ b ∈ w.take n, b ≠ 0 :=
  fun b hb => hw b (List.mem_of_mem_take hb)

theorem string_zeros (p : List Nat) (n : Nat) (h : p.length < n) :
    p ++ [0] ++ List.replicate (n - (p ++ [0]).length) 0 = p ++ List.replicate (n - p.length) 0 := by
  have h1 : n - p.length = (n - (p.length + 1)) + 1 := by omega
  rw [h1, List.replicate_succ]
  simp

/-- The string read on a zeroed buffer of `n` bytes, when the string is readable. -/
theorem read_str_string (k : Kernel) (n : Nat) (hn : 0 < n) (ptr : Nat) (p : List Nat)
    (h : user_string_at k.mem ptr p = true) :
    bpf_probe_read_user_str k (List.replicate n 0) n ptr =
      if p.length < n then ((p.length : Int) + 1, p ++ List.replicate (n - p.length) 0)
      else ((n : Int), p.take (n - 1) ++ [0]) := by
  have hn0 : n ≠ 0 := by omega
  rw [bpf_probe_read_user_str, strncpy_from_user_string k.mem n p ptr h]
  by_cases hlt : p.length < n
  · have h1 : ¬ ((n : Int) ≤ (p.length : Int)) := by omega
    have h2 : (0 : Int) ≤ (p.length : Int) := by omega
    simp only [hlt, if_true, hn0, if_false, h1, h2, store_zeros, string_zeros p n hlt]
  · have h1 : (n : Int) ≤ (n : Int) := le_refl _
    have h3 : (p.take n).length = n := by simp; omega
    simp only [hlt, if_false, hn0, h1, if_true, store_zeros, h3, Nat.sub_self,
      List.replicate_zero, List.append_nil]
    rw [set_last_zero _ n hn h3, List.take_take]
    simp [Nat.min_eq_left (Nat.sub_le n 1)]

/-- Every outcome of the string read on a zeroed buffer of `n` bytes leaves a
NUL-free string shorter than `n` followed only by NUL bytes. -/
theorem read_str_shape (k : Kernel) (n : Nat) (hn : 0 < n) (ptr : Nat) :
    ∃ q : List Nat, q.length < n ∧ (∀ b ∈ q, b ≠ 0) ∧
      (bpf_probe_read_user_str k (List.replicate n 0) n ptr).2 =
        q ++ List.replicate (n - q.length) 0 := by
  have hn0 : n ≠ 0 := by omega
  rcases strncpy_from_user_cases k.mem n ptr with
    ⟨h1, h2, h3, _, _⟩ | ⟨p, hp, _, hs⟩ | ⟨h1, h2, h3, _⟩
  · cases hc : k.clear_on_fault with
    | true =>
      refine ⟨[], by simpa using hn, by simp, ?_⟩
      have h4 : ¬ ((n : Int) ≤ -EFAULT) := by simp [EFAULT]; omega
      have h5 : ¬ ((0 : Int) ≤ -EFAULT) := by simp [EFAULT]
      simp [bpf_probe_read_user_str, hn0, h1, h4, h5, hc, memset_zero, store]
      omega
    | false =>
      refine ⟨(strncpy_from_user k.mem ptr n).1, h2, h3, ?_⟩
      have h4 : ¬ ((n : Int) ≤ -EFAULT) := by simp [EFAULT]; omega
      have h5 : ¬ ((0 : Int) ≤ -EFAULT) := by simp [EFAULT]
      simp [bpf_probe_read_user_str, hn0, h1, h4, h5, hc, store_zeros]
  · rw [read_str_string k n hn ptr p hs]
    by_cases hlt : p.length < n
    · exact ⟨p, hlt, (user_string_at_bytes k.mem p ptr hs).1, by simp [hlt]⟩
    · refine ⟨p.take (n - 1), by simp; omega,
        mem_take_ne_zero p _ (user_string_at_bytes k.mem p ptr hs).1, ?_⟩
      have h6 : n - (p.take (n - 1)).length = 1 := by simp; omega
      simp only [hlt, if_false]
      rw [h6]
      rfl
  · refine ⟨(strncpy_from_user k.mem ptr n).1.take (n - 1), by simp; omega,
      mem_take_ne_zero _ _ h3, ?_⟩
    have h4 : (n : Int) ≤ (n : Int) := le_refl _
    have h6 : n - ((strncpy_from_user k.mem ptr n).1.take (n - 1)).length = 1 := by simp; omega
    rw [h6]
    simp only [bpf_probe_read_user_str, hn0, if_false, h1, h4, if_true, store_zeros, h2,
      Nat.sub_self, List.replicate_zero, List.append_nil]
    rw [set_last_zero _ n hn h2]
    simp

/-- A failed string read: `n` is positive, the scan stopped at a faulting address after
fewer than `n` readable NUL-free bytes, and the buffer is cleared or, when the host
does not clear it, holds those bytes. -/
theorem read_str_fault (k : Kernel) (n : Nat) (ptr : Nat)
    (h : (bpf_probe_read_user_str k (List.replicate n 0) n ptr).1 < 0) :
    (k.clear_on_fault = true →
      (bpf_probe_read_user_str k (List.replicate n 0) n ptr).2 = List.replicate n 0) ∧
    ∃ q : List Nat, q.length < n ∧ (∀ b ∈ q, b ≠ 0) ∧ user_bytes_at k.mem ptr q = true ∧
      k.mem (ptr + q.length) = none ∧
      (k.clear_on_fault = false →
        (bpf_probe_read_user_str k (List.replicate n 0) n ptr).2 =
          q ++ List.replicate (n - q.length) 0) := by
  by_cases hn0 : n = 0
  · subst hn0
    simp [bpf_probe_read_user_str] at h
  have hn : 0 < n := by omega
  rcases strncpy_from_user_cases k.mem n ptr with
    ⟨h1, h2, h3, h4, h5⟩ | ⟨p, hp, _, hs⟩ | ⟨h1, h2, h3, _⟩
  · have h6 : ¬ ((n : Int) ≤ -EFAULT) := by simp [EFAULT]; omega
    have h7 : ¬ ((0 : Int) ≤ -EFAULT) := by simp [EFAULT]
    refine ⟨?_, (strncpy_from_user k.mem ptr n).1, h2, h3, h4, h5, ?_⟩
    · intro hc
      simp [bpf_probe_read_user_str, hn0, h1, h6, h7, hc, memset_zero, store]
      omega
    · intro hc
      simp [bpf_probe_read_user_str, hn0, h1, h6, h7, hc, store_zeros]
  · exfalso
    rw [read_str_string k n hn ptr p hs] at h
    by_cases hlt : p.length < n
    · simp [hlt] at h; omega
    · simp [hlt] at h; omega
  · exfalso
    have h4 : (n : Int) ≤ (n : Int) := le_refl _
    simp only [bpf_probe_read_user_str, hn0, if_false, h1, h4, if_true] at h
    omega

/-! ## The record built by the probe -/

theorem strscpy_pad_length (src : List Nat) (n : Nat) (hn : 0 < n) :
    (strscpy_pad src n).length = n := by
  have h : ((cstr src).take (n - 1)).length ≤ n := by
    rw [List.length_take]; omega
  simp only [strscpy_pad, List.length_append, List.length_replicate]
  omega

theorem strscpy_pad_string (src : List Nat) (n : Nat) (hsrc : ∀ b ∈ src, b ≠ 0) :
    strscpy_pad src n = src.take (n - 1) ++ List.replicate (n - (src.take (n - 1)).length) 0 := by
  have h : cstr src = src := by
    have := cstr_append_zeros src 0 hsrc
    simpa using this
  simp only [strscpy_pad, h]

theorem build_evt_pid (k : Kernel) (ctx : trace_event_raw_sys_enter) :
    (build_evt k ctx).pid = bpf_get_current_pid_tgid k / 2 ^ 32 := by
  have h : bpf_get_current_pid_tgid k < 2 ^ 64 := Nat.mod_lt _ (by norm_num)
  simp only [build_evt, Nat.shiftRight_eq_div_pow]
  apply Nat.mod_eq_of_lt
  omega

theorem build_evt_pid_lt (k : Kernel) (ctx : trace_event_raw_sys_enter) :
    (build_evt k ctx).pid < 2 ^ 32 := by
  simp only [build_evt]
  exact Nat.mod_lt _ (by norm_num)

theorem build_evt_comm (k : Kernel) (ctx : trace_event_raw_sys_enter) :
    (build_evt k ctx).comm = strscpy_pad k.comm 16 := by
  have h := strscpy_pad_length k.comm 16 (by norm_num)
  simp [build_evt, bpf_get_current_comm, event_zero, COMM_SIZE, store, h]

theorem build_evt_filename (k : Kernel) (ctx : trace_event_raw_sys_enter) :
    (build_evt k ctx).filename =
      (bpf_probe_read_user_str k (List.replicate 256 0) 256 (ctx.args 1)).2 := rfl

theorem build_evt_comm_length (k : Kernel) (ctx : trace_event_raw_sys_enter) :
    (build_evt k ctx).comm.length = 16 := by
  rw [build_evt_comm]; exact strscpy_pad_length _ _ (by norm_num)

theorem build_evt_filename_length (k : Kernel) (ctx : trace_event_raw_sys_enter) :
    (build_evt k ctx).filename.length = 256 := by
  obtain ⟨q, hq, _, h⟩ := read_str_shape k 256 (by norm_num) (ctx.args 1)
  rw [build_evt_filename, h]
  simp; omega

theorem event_bytes_build (k : Kernel) (ctx : trace_event_raw_sys_enter) :
    event_bytes (build_evt k ctx) =
      le32 (build_evt k ctx).pid ++ (build_evt k ctx).comm ++ (build_evt k ctx).filename :=
  event_bytes_eq _ (build_evt_comm_length k ctx) (build_evt_filename_length k ctx)

theorem event_bytes_build_length (k : Kernel) (ctx : trace_event_raw_sys_enter) :
    (event_bytes (build_evt k ctx)).length = 276 := by
  rw [event_bytes_build]
  simp [le32, build_evt_comm_length, build_evt_filename_length]

theorem perf_output_current_cpu (k : Kernel) (m : PerfEventArray) (data : List Nat) (size : Nat) :
    bpf_perf_event_output k m BPF_F_CURRENT_CPU data size =
      if (m.ring k.cpu).length < m.capacity then
        (0, { m with ring := Function.update m.ring k.cpu (m.ring k.cpu ++ [data.take size]),
                     log := m.log ++ [⟨k.cpu, data.take size⟩] })
      else (-ENOSPC, { m with log := m.log ++ [⟨k.cpu, data.take size⟩] }) := by
  have h : BPF_F_CURRENT_CPU % 2 ^ 32 = BPF_F_CURRENT_CPU := by decide
  simp only [bpf_perf_event_output, h, if_true]

theorem trace_unlinkat_eq (k : Kernel) (ctx : trace_event_raw_sys_enter) (m : PerfEventArray) :
    trace_unlinkat k ctx m =
      (0, ctx,
        if (m.ring k.cpu).length < m.capacity then
          { m with
            ring := Function.update m.ring k.cpu (m.ring k.cpu ++ [event_bytes (build_evt k ctx)]),
            log := m.log ++ [⟨k.cpu, event_bytes (build_evt k ctx)⟩] }
        else { m with log := m.log ++ [⟨k.cpu, event_bytes (build_evt k ctx)⟩] }) := by
  have h : (event_bytes (build_evt k ctx)).take sizeof_event = event_bytes (build_evt k ctx) :=
    List.take_of_length_le (by rw [event_bytes_build_length, sizeof_event_eq])
  simp only [trace_unlinkat, perf_output_current_cpu, h]
  split <;> rfl

theorem trace_unlinkat_log (k : Kernel) (ctx : trace_event_raw_sys_enter) (m : PerfEventArray) :
    (trace_unlinkat k ctx m).2.2.log = m.log ++ [⟨k.cpu, event_bytes (build_evt k ctx)⟩] := by
  rw [trace_unlinkat_eq]
  split <;> rfl

theorem submitted_eq (k : Kernel) (ctx : trace_event_raw_sys_enter) (m : PerfEventArray) :
    submitted k ctx m =
      le32 (build_evt k ctx).pid ++ (build_evt k ctx).comm ++ (build_evt k ctx).filename := by
  rw [submitted, last_submitted, trace_unlinkat_log, List.getLast?_concat, ← event_bytes_build]
  rfl

theorem submitted_pid (k : Kernel) (ctx : trace_event_raw_sys_enter) (m : PerfEventArray) :
    wire_pid (submitted k ctx m) = bpf_get_current_pid_tgid k / 2 ^ 32 := by
  rw [submitted_eq, wire_pid_eq _ _ _ (build_evt_pid_lt k ctx), build_evt_pid]

theorem submitted_comm (k : Kernel) (ctx : trace_event_raw_sys_enter) (m : PerfEventArray) :
    wire_comm (submitted k ctx m) = strscpy_pad k.comm 16 := by
  rw [submitted_eq, wire_comm_eq _ _ _ (build_evt_comm_length k ctx), build_evt_comm]

theorem submitted_filename (k : Kernel) (ctx : trace_event_raw_sys_enter) (m : PerfEventArray) :
    wire_filename (submitted k ctx m) =
      (bpf_probe_read_user_str k (List.replicate 256 0) 256 (ctx.args 1)).2 := by
  rw [submitted_eq, wire_filename_eq _ _ _ (build_evt_comm_length k ctx)
    (build_evt_filename_length k ctx), build_evt_filename]

/-- The channel of a core after a sequence of invocations all running on that core:
the records queued before, then the records of the first invocations that still
found a free slot. -/
theorem run_probe_ring (calls : List (Kernel × trace_event_raw_sys_enter)) (m : PerfEventArray)
    (cpu : Nat) (hcpu : ∀ c ∈ calls, c.1.cpu = cpu) :
    (run_probe calls m).ring cpu =
      m.ring cpu ++ (calls.take (m.capacity - (m.ring cpu).length)).map
        (fun c => event_bytes (build_evt c.1 c.2)) := by
  induction calls generalizing m with
  | nil => simp [run_probe]
  | cons c rest ih =>
    obtain ⟨k, ctx⟩ := c
    have hk : k.cpu = cpu := hcpu (k, ctx) (by simp)
    have hrest : ∀ c ∈ rest, c.1.cpu = cpu := fun c hc => hcpu c (by simp [hc])
    rw [run_probe, ih _ hrest, trace_unlinkat_eq]
    simp only [hk]
    by_cases hfull : (m.ring cpu).length < m.capacity
    · have h1 : m.capacity - (m.ring cpu).length = (m.capacity - ((m.ring cpu).length + 1)) + 1 := by
        omega
      simp only [hfull, if_true, Function.update_same]
      rw [h1]
      simp
    · have h1 : m.capacity - (m.ring cpu).length = 0 := by omega
      simp [hfull, h1]

theorem run_probe_log_length (calls : List (Kernel × trace_event_raw_sys_enter))
    (m : PerfEventArray) : (run_probe calls m).log.length = m.log.length + calls.length := by
  induction calls generalizing m with
  | nil => simp [run_probe]
  | cons c rest ih =>
    obtain ⟨k, ctx⟩ := c
    rw [run_probe, ih, trace_unlinkat_log]
    simp; omega

/-! ## The claims -/

/-- C1: for every 64-bit value v returned by bpf_get_current_pid_tgid, the pid field of
the record submitted by trace_unlinkat equals v / 2^32, which fits in 32 bits; the
lower 32 bits (the thread id) have no influence: two values with the same upper
half give the same pid, and a caller with thread-group id tgid and any thread id
is reported as tgid. -/
theorem pid_is_upper_half (k : Kernel) (ctx : trace_event_raw_sys_enter) (m : PerfEventArray) :
    wire_pid (submitted k ctx m) = bpf_get_current_pid_tgid k / 2 ^ 32 ∧
    bpf_get_current_pid_tgid k / 2 ^ 32 < 2 ^ 32 ∧
    (∀ (k2 : Kernel) (ctx2 : trace_event_raw_sys_enter) (m2 : PerfEventArray),
      bpf_get_current_pid_tgid k2 / 2 ^ 32 = bpf_get_current_pid_tgid k / 2 ^ 32 →
      wire_pid (submitted k2 ctx2 m2) = wire_pid (submitted k ctx m)) ∧
    (∀ tgid tid : Nat, tgid < 2 ^ 32 → tid < 2 ^ 32 →
      wire_pid (submitted { k with pid_tgid := tgid * 2 ^ 32 + tid } ctx m) = tgid) := by
  refine ⟨submitted_pid k ctx m, ?_, ?_, ?_⟩
  · have h : bpf_get_current_pid_tgid k < 2 ^ 64 := Nat.mod_lt _ (by norm_num)
    omega
  · intro k2 ctx2 m2 h
    rw [submitted_pid, submitted_pid, h]
  · intro tgid tid h1 h2
    rw [submitted_pid]
    simp only [bpf_get_current_pid_tgid]
    omega

theorem pid_is_upper_half_witness :
    wire_pid (submitted { sample_kernel with pid_tgid := 5 * 2 ^ 32 + 77 } sample_ctx
      (sample_events 2)) = 5 :=
  (pid_is_upper_half sample_kernel sample_ctx (sample_events 2)).2.2.2 5 77
    (by norm_num) (by norm_num)

/-- C2: round trip.  When a NUL-free path of at most 255 bytes (the empty path
included) is readable, with its terminator, at the address in the second syscall
argument, the filename field of the submitted record read up to its first NUL is
that path; the field depends on the context only through that argument. -/
theorem filename_round_trip (k : Kernel) (ctx : trace_event_raw_sys_enter) (m : PerfEventArray)
    (path : List Nat) (hread : user_string_at k.mem (ctx.args 1) path = true)
    (hlen : path.length ≤ 255) :
    cstr (wire_filename (submitted k ctx m)) = path ∧
    wire_filename (submitted k ctx m) = path ++ List.replicate (256 - path.length) 0 ∧
    (∀ (ctx2 : trace_event_raw_sys_enter) (m2 : PerfEventArray), ctx2.args 1 = ctx.args 1 →
      wire_filename (submitted k ctx2 m2) = wire_filename (submitted k ctx m)) := by
  have hlt : path.length < 256 := by omega
  have h : wire_filename (submitted k ctx m) = path ++ List.replicate (256 - path.length) 0 := by
    rw [submitted_filename, read_str_string k 256 (by norm_num) _ path hread]
    simp only [hlt, if_true]
  refine ⟨?_, h, ?_⟩
  · rw [h, cstr_append_zeros path _ (user_string_at_bytes k.mem path _ hread).1]
  · intro ctx2 m2 h2
    rw [submitted_filename, submitted_filename, h2]

theorem filename_round_trip_witness :
    cstr (wire_filename (submitted sample_kernel sample_ctx (sample_events 2))) = [97, 98, 99] :=
  (filename_round_trip sample_kernel sample_ctx (sample_events 2) [97, 98, 99]
    (by decide) (by decide)).1

/-- C3: truncation boundary.  For a readable NUL-free path, the filename field holds
the first 255 bytes of the path followed by NUL in byte 255 whenever the path has
256 bytes or more, and the field read as a string equals the path exactly when the
path has at most 255 bytes. -/
theorem filename_truncation (k : Kernel) (ctx : trace_event_raw_sys_enter) (m : PerfEventArray)
    (path : List Nat) (hread : user_string_at k.mem (ctx.args 1) path = true) :
    (256 ≤ path.length →
      wire_filename (submitted k ctx m) = path.take 255 ++ [0] ∧
      (wire_filename (submitted k ctx m)).length = 256 ∧
      (wire_filename (submitted k ctx m))[255]? = some 0) ∧
    (cstr (wire_filename (submitted k ctx m)) = path ↔ path.length ≤ 255) := by
  have hfree := (user_string_at_bytes k.mem path _ hread).1
  have hlong : 256 ≤ path.length →
      wire_filename (submitted k ctx m) = path.take 255 ++ [0] := by
    intro h256
    have hlt : ¬ path.length < 256 := by omega
    rw [submitted_filename, read_str_string k 256 (by norm_num) _ path hread]
    simp only [hlt, if_false]
  refine ⟨?_, ?_⟩
  · intro h256
    have hl : (path.take 255).length = 255 := by rw [List.length_take]; omega
    refine ⟨hlong h256, ?_, ?_⟩
    · rw [hlong h256]; simp; omega
    · rw [hlong h256, List.getElem?_append_right (by omega)]
      simp [hl]
  · constructor
    · intro hc
      by_contra hgt
      have h256 : 256 ≤ path.length := by omega
      have h1 := hlong h256
      have h2 : path.take 255 ++ [0] = path.take 255 ++ List.replicate 1 0 := rfl
      rw [h1, h2, cstr_append_zeros _ _ (mem_take_ne_zero path 255 hfree)] at hc
      have h3 := congrArg List.length hc
      rw [List.length_take] at h3
      omega
    · intro hle
      have hlt : path.length < 256 := by omega
      rw [submitted_filename, read_str_string k 256 (by norm_num) _ path hread]
      simp only [hlt, if_true]
      exact cstr_append_zeros path _ hfree

set_option maxRecDepth 100000 in
theorem filename_truncation_witness :
    wire_filename (submitted long_kernel sample_ctx (sample_events 2)) =
      List.replicate 255 65 ++ [0] :=
  ((filename_truncation long_kernel sample_ctx (sample_events 2) (List.replicate 300 65)
    (by decide)).1 (by decide)).1

/-- C4: for every invocation by a caller whose program name is a NUL-free string, the
comm field of the submitted record is the first 15 bytes of the name followed by
NUL bytes up to 16 bytes: a name shorter than 15 bytes is NUL-padded, a name of 15
bytes or more is cut to 15 bytes plus the terminator. -/
theorem comm_is_truncated_name (k : Kernel) (ctx : trace_event_raw_sys_enter)
    (m : PerfEventArray) (hname : ∀ b ∈ k.comm, b ≠ 0) :
    wire_comm (submitted k ctx m) =
      k.comm.take 15 ++ List.replicate (16 - (k.comm.take 15).length) 0 ∧
    (wire_comm (submitted k ctx m)).length = 16 ∧
    cstr (wire_comm (submitted k ctx m)) = k.comm.take 15 ∧
    (k.comm.length < 15 →
      wire_comm (submitted k ctx m) = k.comm ++ List.replicate (16 - k.comm.length) 0) ∧
    (15 ≤ k.comm.length → wire_comm (submitted k ctx m) = k.comm.take 15 ++ [0]) := by
  have h : wire_comm (submitted k ctx m) =
      k.comm.take 15 ++ List.replicate (16 - (k.comm.take 15).length) 0 := by
    rw [submitted_comm, strscpy_pad_string k.comm 16 hname]
  refine ⟨h, ?_, ?_, ?_, ?_⟩
  · rw [submitted_comm]; exact strscpy_pad_length _ _ (by norm_num)
  · rw [h]; exact cstr_append_zeros _ _ (mem_take_ne_zero k.comm 15 hname)
  · intro hlt
    rw [h, List.take_of_length_le (by omega)]
  · intro hge
    have hl : (k.comm.take 15).length = 15 := by rw [List.length_take]; omega
    rw [h, hl]
    rfl

theorem comm_is_truncated_name_witness :
    wire_comm (submitted long_kernel sample_ctx (sample_events 2)) =
      List.replicate 15 66 ++ [0] ∧
    wire_comm (submitted sample_kernel sample_ctx (sample_events 2)) =
      [114, 109] ++ List.replicate 14 0 :=
  ⟨(comm_is_truncated_name long_kernel sample_ctx (sample_events 2) (by decide)).2.2.2.2
      (by decide),
   (comm_is_truncated_name sample_kernel sample_ctx (sample_events 2) (by decide)).2.2.2.1
      (by decide)⟩

/-- C5: every invocation of trace_unlinkat makes exactly one submission to the events
channel, whatever the caller, the context and the state of the channel: the log of
attempts grows by the one record built; so N invocations make exactly N attempts. -/
theorem one_submission_per_invocation (k : Kernel) (ctx : trace_event_raw_sys_enter)
    (m : PerfEventArray) :
    (trace_unlinkat k ctx m).2.2.log = m.log ++ [⟨k.cpu, event_bytes (build_evt k ctx)⟩] ∧
    (trace_unlinkat k ctx m).2.2.log.length = m.log.length + 1 ∧
    (∀ calls : List (Kernel × trace_event_raw_sys_enter),
      (run_probe calls m).log.length = m.log.length + calls.length) := by
  refine ⟨trace_unlinkat_log k ctx m, ?_, fun calls => run_probe_log_length calls m⟩
  rw [trace_unlinkat_log]
  simp

/-- C6: when the path read returns a negative result, trace_unlinkat still returns 0
and still makes its one submission; pid and comm of the record are what any caller
with the same ids and name gets, whatever its memory; filename is a NUL-terminated,
NUL-padded string that is either empty or the readable NUL-free bytes before the
faulting address. -/
theorem path_read_failure (k : Kernel) (ctx : trace_event_raw_sys_enter) (m : PerfEventArray)
    (hfail : (bpf_probe_read_user_str k event_zero.filename FILENAME_SIZE (ctx.args 1)).1 < 0) :
    (trace_unlinkat k ctx m).1 = 0 ∧
    (trace_unlinkat k ctx m).2.2.log = m.log ++ [⟨k.cpu, submitted k ctx m⟩] ∧
    (∀ (k2 : Kernel) (ctx2 : trace_event_raw_sys_enter) (m2 : PerfEventArray),
      k2.pid_tgid = k.pid_tgid → k2.comm = k.comm →
      wire_pid (submitted k ctx m) = wire_pid (submitted k2 ctx2 m2) ∧
      wire_comm (submitted k ctx m) = wire_comm (submitted k2 ctx2 m2)) ∧
    nul_padded 256 (wire_filename (submitted k ctx m)) ∧
    (wire_filename (submitted k ctx m) = List.replicate 256 0 ∨
      ∃ q : List Nat, q.length < 256 ∧ (∀ b ∈ q, b ≠ 0) ∧
        user_bytes_at k.mem (ctx.args 1) q = true ∧ k.mem (ctx.args 1 + q.length) = none ∧
        wire_filename (submitted k ctx m) = q ++ List.replicate (256 - q.length) 0) ∧
    (k.clear_on_fault = true → wire_filename (submitted k ctx m) = List.replicate 256 0) := by
  have hfail2 : (bpf_probe_read_user_str k (List.replicate 256 0) 256 (ctx.args 1)).1 < 0 := hfail
  refine ⟨rfl, ?_, ?_, ?_, ?_, ?_⟩
  · rw [trace_unlinkat_log, submitted_eq, event_bytes_build]
  · intro k2 ctx2 m2 h1 h2
    simp only [submitted_pid, submitted_comm, bpf_get_current_pid_tgid, h1, h2, and_self]
  · obtain ⟨q, hq, hfree, h⟩ := read_str_shape k 256 (by norm_num) (ctx.args 1)
    rw [submitted_filename, h]
    exact nul_padded_of_string 256 q hfree hq
  · rw [submitted_filename]
    obtain ⟨hclear, q, h1, h2, h3, h4, hkeep⟩ := read_str_fault k 256 (ctx.args 1) hfail2
    cases hc : k.clear_on_fault with
    | true => exact Or.inl (hclear hc)
    | false => exact Or.inr ⟨q, h1, h2, h3, h4, hkeep hc⟩
  · intro hc
    rw [submitted_filename]
    exact (read_str_fault k 256 (ctx.args 1) hfail2).1 hc

theorem path_read_failure_witness :
    (trace_unlinkat faulting_kernel sample_ctx (sample_events 2)).1 = 0 ∧
    wire_filename (submitted faulting_kernel sample_ctx (sample_events 2)) =
      List.replicate 256 0 ∧
    nul_padded 256 (wire_filename (submitted torn_kernel sample_ctx (sample_events 2))) :=
  ⟨(path_read_failure faulting_kernel sample_ctx (sample_events 2) (by decide)).1,
   (path_read_failure faulting_kernel sample_ctx (sample_events 2) (by decide)).2.2.2.2.2 rfl,
   (path_read_failure torn_kernel sample_ctx (sample_events 2) (by decide)).2.2.2.1⟩

/-- C7: drop on full.  When the channel of the current core is full, the submission of
trace_unlinkat is dropped: every channel holds the records it held before, the helper
reports the drop, the probe makes no second attempt and returns 0.  Consequently K+5
invocations on one core against an empty, undrained channel of capacity K leave
exactly K records, those of the first K invocations. -/
theorem drop_on_full (k : Kernel) (ctx : trace_event_raw_sys_enter) (m : PerfEventArray)
    (hfull : m.capacity ≤ (m.ring k.cpu).length) :
    (trace_unlinkat k ctx m).1 = 0 ∧
    (trace_unlinkat k ctx m).2.2.ring = m.ring ∧
    (trace_unlinkat k ctx m).2.2.capacity = m.capacity ∧
    (trace_unlinkat k ctx m).2.2.log.length = m.log.length + 1 ∧
    (bpf_perf_event_output k m BPF_F_CURRENT_CPU (event_bytes (build_evt k ctx)) sizeof_event).1
      = -ENOSPC ∧
    (∀ (K : Nat) (calls : List (Kernel × trace_event_raw_sys_enter)) (m0 : PerfEventArray)
      (cpu : Nat), m0.capacity = K → m0.ring cpu = [] → (∀ c ∈ calls, c.1.cpu = cpu) →
      calls.length = K + 5 →
      ((run_probe calls m0).ring cpu).length = K ∧
      (run_probe calls m0).ring cpu =
        (calls.take K).map (fun c => event_bytes (build_evt c.1 c.2))) := by
  have hnot : ¬ (m.ring k.cpu).length < m.capacity := by omega
  refine ⟨rfl, ?_, ?_, ?_, ?_, ?_⟩
  · rw [trace_unlinkat_eq]; simp only [hnot, if_false]
  · rw [trace_unlinkat_eq]; simp only [hnot, if_false]
  · rw [trace_unlinkat_log]; simp
  · rw [perf_output_current_cpu]; simp only [hnot, if_false]
  · intro K calls m0 cpu hcap hempty hcpu hlen
    have h := run_probe_ring calls m0 cpu hcpu
    rw [hempty, hcap] at h
    simp only [List.length_nil, Nat.sub_zero, List.nil_append] at h
    refine ⟨?_, h⟩
    rw [h, List.length_map, List.length_take]
    omega

theorem drop_on_full_witness :
    (trace_unlinkat sample_kernel sample_ctx (sample_events 0)).2.2.ring =
      (sample_events 0).ring ∧
    ((run_probe (List.replicate 7 (sample_kernel, sample_ctx)) (sample_events 2)).ring 0).length
      = 2 :=
  ⟨(drop_on_full sample_kernel sample_ctx (sample_events 0) (by decide)).2.1,
   ((drop_on_full sample_kernel sample_ctx (sample_events 0) (by decide)).2.2.2.2.2 2
      (List.replicate 7 (sample_kernel, sample_ctx)) (sample_events 2) 0 rfl rfl
      (by intro c hc; rw [List.eq_of_mem_replicate hc]; rfl) rfl).1⟩

/-- C8: wire layout.  The struct is 276 bytes with members at offsets 0, 4 and 20; every
record submitted by trace_unlinkat is 276 bytes: the little-endian 32-bit pid in
bytes 0 to 3, the 16 bytes of comm from offset 4, the 256 bytes of filename from
offset 20, nothing between or after; and it is passed whole, in the one call. -/
theorem wire_layout (k : Kernel) (ctx : trace_event_raw_sys_enter) (m : PerfEventArray) :
    sizeof_event = 276 ∧
    member_offsets event_members 0 = [0, 4, 20] ∧
    (submitted k ctx m).length = 276 ∧
    (submitted k ctx m).take 4 = le32 (build_evt k ctx).pid ∧
    wire_pid (submitted k ctx m) = (build_evt k ctx).pid ∧
    ((submitted k ctx m).drop 4).take 16 = (build_evt k ctx).comm ∧
    (build_evt k ctx).comm.length = 16 ∧
    (submitted k ctx m).drop 20 = (build_evt k ctx).filename ∧
    (build_evt k ctx).filename.length = 256 ∧
    submitted k ctx m = event_bytes (build_evt k ctx) ∧
    (trace_unlinkat k ctx m).2.2.log = m.log ++ [⟨k.cpu, submitted k ctx m⟩] := by
  have hc := build_evt_comm_length k ctx
  have hf := build_evt_filename_length k ctx
  have hs := submitted_eq k ctx m
  refine ⟨sizeof_event_eq, by decide, ?_, ?_, ?_, ?_, hc, ?_, hf, ?_, ?_⟩
  · rw [hs]; simp [le32, hc, hf]
  · rw [hs]; simp [le32]
  · rw [hs]; exact wire_pid_eq _ _ _ (build_evt_pid_lt k ctx)
  · have h := wire_comm_eq (build_evt k ctx).pid _ (build_evt k ctx).filename hc
    rw [hs]; exact h
  · have h : (le32 (build_evt k ctx).pid ++ (build_evt k ctx).comm).length = 20 := by
      simp [le32, hc]
    rw [hs, ← h, List.drop_left]
  · rw [hs, event_bytes_build]
  · rw [trace_unlinkat_log, hs, event_bytes_build]

/-- C9: non-interference.  Every invocation of trace_unlinkat, whatever the caller, the
syscall arguments and the state of the channel (so whatever the helpers return),
returns 0 and leaves the context, its argument list included, as it was. -/
theorem non_interference (k : Kernel) (ctx : trace_event_raw_sys_enter) (m : PerfEventArray) :
    (trace_unlinkat k ctx m).1 = 0 ∧
    (trace_unlinkat k ctx m).2.1.args = ctx.args ∧
    (trace_unlinkat k ctx m).2.1.id = ctx.id :=
  ⟨rfl, rfl, rfl⟩

theorem nul_padded_tail (n : Nat) (buf : List Nat) (h : nul_padded n buf) (i : Nat)
    (h1 : (cstr buf).length ≤ i) (h2 : i < n) : buf[i]? = some 0 := by
  obtain ⟨_, _, heq⟩ := h
  have h3 : buf[i]? = (cstr buf ++ List.replicate (n - (cstr buf).length) 0)[i]? := by
    rw [← heq]
  rw [h3, List.getElem?_append_right h1, List.getElem?_replicate]
  have h4 : i - (cstr buf).length < n - (cstr buf).length := by omega
  simp [h4]

set_option maxRecDepth 100000 in
theorem event_bytes_zero : event_bytes event_zero = List.replicate 276 0 := by
  decide

/-- C10: record well-formedness.  The record starts as 276 zero bytes; in every record
submitted (path read successful, truncated or failed), comm and filename are
NUL-terminated within their 16 and 256 bytes and NUL-padded, every byte of filename
from the end of the captured string on is 0, and the 276 bytes are exactly the
three fields. -/
theorem record_well_formed (k : Kernel) (ctx : trace_event_raw_sys_enter) (m : PerfEventArray) :
    event_bytes event_zero = List.replicate 276 0 ∧
    (submitted k ctx m).length = 276 ∧
    nul_padded 16 (wire_comm (submitted k ctx m)) ∧
    nul_padded 256 (wire_filename (submitted k ctx m)) ∧
    (∀ i : Nat, (cstr (wire_filename (submitted k ctx m))).length ≤ i → i < 256 →
      (wire_filename (submitted k ctx m))[i]? = some 0) ∧
    submitted k ctx m =
      le32 (wire_pid (submitted k ctx m)) ++ wire_comm (submitted k ctx m) ++
        wire_filename (submitted k ctx m) := by
  have hc := build_evt_comm_length k ctx
  have hf := build_evt_filename_length k ctx
  have hs := submitted_eq k ctx m
  have hfile : nul_padded 256 (wire_filename (submitted k ctx m)) := by
    obtain ⟨q, hq, hfree, h⟩ := read_str_shape k 256 (by norm_num) (ctx.args 1)
    rw [submitted_filename, h]
    exact nul_padded_of_string 256 q hfree hq
  refine ⟨event_bytes_zero, ?_, ?_, hfile, ?_, ?_⟩
  · rw [hs]; simp [le32, hc, hf]
  · rw [submitted_comm]
    have h : ((cstr k.comm).take 15).length < 16 := by
      rw [List.length_take]; omega
    have hfree : ∀ b ∈ (cstr k.comm).take 15, b ≠ 0 := by
      intro b hb
      have hb2 := List.mem_of_mem_take hb
      have hb3 := List.mem_takeWhile_imp hb2
      simpa using hb3
    exact nul_padded_of_string 16 _ hfree h
  · intro i h1 h2
    exact nul_padded_tail 256 _ hfile i h1 h2
  · have e1 : wire_pid (submitted k ctx m) = (build_evt k ctx).pid := by
      rw [hs]; exact wire_pid_eq _ _ _ (build_evt_pid_lt k ctx)
    have e2 : wire_comm (submitted k ctx m) = (build_evt k ctx).comm := by
      rw [hs]; exact wire_comm_eq _ _ _ hc
    have e3 : wire_filename (submitted k ctx m) = (build_evt k ctx).filename := by
      rw [hs]; exact wire_filename_eq _ _ _ hc hf
    rw [e1, e2, e3, hs]

end Radar
